import Mathlib

/-!
Verification of the streaming ASR pipeline scripts (`verify_streaming.py`,
`debug_features2.py`, `debug_decode.py`).

The development shallowly embeds the core pipeline: the mel filterbank
construction, feature-frame counting, the greedy RNN-T decode loop with
transactional blank rollback, the encoder cache threading discipline, and the
orchestrator's chunking loops.  The external neural networks (encoder and
decoder-joint) are modelled as opaque function parameters, exactly as the
scripts treat the ONNX sessions.  Logits are modelled over `ℚ` (exact stand-in
for the scripts' floats wherever only comparisons matter) and spectral values
over `ℝ`.
-/

/-! ### Constants (verify_streaming.py lines 21-34) -/

def REQUIRED_SAMPLE_RATE : ℕ := 16000
def WINDOW_SIZE_MS : ℕ := 25
def HOP_SIZE_MS : ℕ := 10
def NUM_MEL_BINS : ℕ := 128
def FFT_SIZE : ℕ := 512
def BLANK_ID : ℕ := 1024
def MAX_SYMBOLS_PER_STEP : ℕ := 10
def VOCAB_SIZE : ℕ := 1025
def ENCODER_DIM : ℕ := 1024
def NUM_LAYERS : ℕ := 24
def CACHE_CHANNEL_CONTEXT : ℕ := 70
def CACHE_TIME_CONTEXT : ℕ := 8

/-! ### Greedy transducer decoder

Embedding of the greedy decode loop that appears in `verify_streaming.main`
(lines 318-377), `debug_features2.greedy_decode` (lines 114-142) and
`debug_decode.greedy_decode_full` (lines 101-129).  The decoder-joint network
is an opaque parameter `dj : φ → ℕ → σ → σ → DJOut σ` taking the encoded
frame, `last_token`, and the two recurrent state tensors, and returning the
logits together with the two updated state tensors, exactly like the
`dec_sess.run` call.  `σ` abstracts the `(2,1,640)` float state tensors and
`φ` the encoded frame tensor: the scripts never inspect their contents. -/

/-- Output of one decoder-joint call: flattened logits plus the two returned
state tensors (`outputs`, `output_states_1`, `output_states_2`). -/
structure DJOut (σ : Type) where
  logits : List ℚ
  state1 : σ
  state2 : σ
deriving DecidableEq

/-- Decoder state owned by the orchestrator: `state1`, `state2`, `last_token`
(verify_streaming.py lines 256-258). -/
structure DecState (σ : Type) where
  state1 : σ
  state2 : σ
  lastToken : ℕ
deriving DecidableEq

/-- Stream-start decoder state: both state tensors zero, `last_token = BLANK_ID`
(verify_streaming.py lines 256-258; `zero` abstracts the all-zero tensor). -/
def initDecState {σ : Type} (zero : σ) : DecState σ :=
  ⟨zero, zero, BLANK_ID⟩

/-- Accumulator of `np.argmax`: scans the remaining list keeping the index of
the first maximum seen so far (`np.argmax` returns the first maximal index;
a later element replaces the champion only when strictly greater). -/
def npArgmaxAux : List ℚ → ℕ → ℚ → ℕ → ℕ
  | [], best, _, _ => best
  | x :: xs, best, bestVal, i =>
      if bestVal < x then npArgmaxAux xs i x (i + 1)
      else npArgmaxAux xs best bestVal (i + 1)

/-- Argmax as `np.argmax` over a list of logits; first maximum wins, `0` on `[]`. -/
def npArgmax : List ℚ → ℕ
  | [] => 0
  | x :: xs => npArgmaxAux xs 0 x 1

/-- Inner symbol loop for one encoded frame (verify_streaming.py lines
321-377): runs up to `fuel` decoder-joint calls; a blank argmax restores the
pre-call snapshot (the returned state tensors are discarded and `last_token`
is kept) and exits; a non-blank argmax commits the returned state, sets
`last_token`, and emits the predicted token. -/
def decodeFrameLoop {σ φ : Type} (dj : φ → ℕ → σ → σ → DJOut σ) (frame : φ) :
    ℕ → DecState σ → DecState σ × List ℕ
  | 0, st => (st, [])
  | fuel + 1, st =>
      let out := dj frame st.lastToken st.state1 st.state2
      let predicted := npArgmax (out.logits.take VOCAB_SIZE)
      if predicted = BLANK_ID then
        (st, [])
      else
        let next := decodeFrameLoop dj frame fuel ⟨out.state1, out.state2, predicted⟩
        (next.1, predicted :: next.2)

/-- Per-chunk decode: each encoded frame in time order through the symbol loop
with `MAX_SYMBOLS_PER_STEP` fuel, threading the decoder state and
concatenating the emitted tokens (verify_streaming.py lines 317-377). -/
def decodeChunk {σ φ : Type} (dj : φ → ℕ → σ → σ → DJOut σ) :
    List φ → DecState σ → DecState σ × List ℕ
  | [], st => (st, [])
  | f :: fs, st =>
      let r := decodeFrameLoop dj f MAX_SYMBOLS_PER_STEP st
      let rest := decodeChunk dj fs r.1
      (rest.1, r.2 ++ rest.2)

/-- Stream decode in verify_streaming.main: chunks in order, decoder state
threaded from each chunk into the next (lines 264-391). -/
def decodeChunks {σ φ : Type} (dj : φ → ℕ → σ → σ → DJOut σ) :
    List (List φ) → DecState σ → DecState σ × List ℕ
  | [], st => (st, [])
  | c :: cs, st =>
      let r := decodeChunk dj c st
      let rest := decodeChunks dj cs r.1
      (rest.1, r.2 ++ rest.2)

/-- Model of `debug_features2.greedy_decode` (lines 114-142): decodes the frames of one
encoder output, but re-initializes `state1`/`state2` to zeros and `last_tok`
to `1024` at every call. -/
def greedy_decode {σ φ : Type} (dj : φ → ℕ → σ → σ → DJOut σ) (zero : σ)
    (frames : List φ) : List ℕ :=
  (decodeChunk dj frames (initDecState zero)).2

/-- The chunked streaming loop of `debug_features2` TEST 2 (lines 190-205):
calls `greedy_decode` once per chunk and concatenates the tokens, so the
decoder state is rebuilt from zero at every chunk boundary. -/
def df2StreamTokens {σ φ : Type} (dj : φ → ℕ → σ → σ → DJOut σ) (zero : σ)
    (chunks : List (List φ)) : List ℕ :=
  (chunks.map (greedy_decode dj zero)).flatten

/-! ### Basic decoder lemmas -/

lemma npArgmaxAux_lt (l : List ℚ) :
    ∀ (best i : ℕ) (bv : ℚ), best < i → npArgmaxAux l best bv i < i + l.length := by
  induction l with
  | nil => intro best i bv h; simpa [npArgmaxAux] using h
  | cons x xs ih =>
      intro best i bv h
      simp only [npArgmaxAux, List.length_cons]
      by_cases hx : bv < x
      · simp only [hx, if_true]
        have := ih i (i + 1) x (Nat.lt_succ_self i)
        omega
      · simp only [hx, if_false]
        have := ih best (i + 1) bv (Nat.lt_succ_of_lt h)
        omega

lemma npArgmax_lt {l : List ℚ} (h : l ≠ []) : npArgmax l < l.length := by
  cases l with
  | nil => exact absurd rfl h
  | cons x xs =>
      have := npArgmaxAux_lt xs 0 1 x Nat.one_pos
      simp only [npArgmax, List.length_cons]
      omega

lemma npArgmax_take_lt (l : List ℚ) (n : ℕ) (hn : 0 < n) :
    npArgmax (l.take n) < n := by
  rcases eq_or_ne (l.take n) [] with h | h
  · simpa [npArgmax, h] using hn
  · exact lt_of_lt_of_le (npArgmax_lt h) (by simp)

lemma decodeFrameLoop_len_le {σ φ : Type} (dj : φ → ℕ → σ → σ → DJOut σ) (frame : φ) :
    ∀ (k : ℕ) (st : DecState σ), (decodeFrameLoop dj frame k st).2.length ≤ k := by
  intro k
  induction k with
  | zero => intro st; simp [decodeFrameLoop]
  | succ n ih =>
      intro st
      simp only [decodeFrameLoop]
      split
      · simp
      · simpa using Nat.succ_le_succ (ih _)

lemma decodeFrameLoop_len_eq {σ φ : Type} (dj : φ → ℕ → σ → σ → DJOut σ) (frame : φ)
    (hnb : ∀ tok s1 s2, npArgmax ((dj frame tok s1 s2).logits.take VOCAB_SIZE) ≠ BLANK_ID) :
    ∀ (k : ℕ) (st : DecState σ), (decodeFrameLoop dj frame k st).2.length = k := by
  intro k
  induction k with
  | zero => intro st; simp [decodeFrameLoop]
  | succ n ih =>
      intro st
      simp only [decodeFrameLoop]
      rw [if_neg (hnb _ _ _)]
      simp [ih]

lemma decodeFrameLoop_tokens_lt {σ φ : Type} (dj : φ → ℕ → σ → σ → DJOut σ) (frame : φ) :
    ∀ (k : ℕ) (st : DecState σ) (t : ℕ), t ∈ (decodeFrameLoop dj frame k st).2 → t < BLANK_ID := by
  intro k
  induction k with
  | zero => intro st t ht; simp [decodeFrameLoop] at ht
  | succ n ih =>
      intro st t ht
      simp only [decodeFrameLoop] at ht
      split at ht
      · simp at ht
      · next hb =>
          simp only [List.mem_cons] at ht
          rcases ht with rfl | ht
          · have h1 : npArgmax ((dj frame st.lastToken st.state1 st.state2).logits.take
                VOCAB_SIZE) < VOCAB_SIZE :=
              npArgmax_take_lt ((dj frame st.lastToken st.state1 st.state2).logits)
                VOCAB_SIZE (by norm_num [VOCAB_SIZE])
            have h2 : VOCAB_SIZE = 1025 := rfl
            have h3 : BLANK_ID = 1024 := rfl
            omega
          · exact ih _ t ht

lemma decodeChunk_tokens_lt {σ φ : Type} (dj : φ → ℕ → σ → σ → DJOut σ) :
    ∀ (fs : List φ) (st : DecState σ) (t : ℕ), t ∈ (decodeChunk dj fs st).2 → t < BLANK_ID := by
  intro fs
  induction fs with
  | nil => intro st t ht; simp [decodeChunk] at ht
  | cons f fs ih =>
      intro st t ht
      simp only [decodeChunk, List.mem_append] at ht
      rcases ht with ht | ht
      · exact decodeFrameLoop_tokens_lt dj f _ _ t ht
      · exact ih _ t ht

lemma decodeChunks_tokens_lt {σ φ : Type} (dj : φ → ℕ → σ → σ → DJOut σ) :
    ∀ (cs : List (List φ)) (st : DecState σ) (t : ℕ),
      t ∈ (decodeChunks dj cs st).2 → t < BLANK_ID := by
  intro cs
  induction cs with
  | nil => intro st t ht; simp [decodeChunks] at ht
  | cons c cs ih =>
      intro st t ht
      simp only [decodeChunks, List.mem_append] at ht
      rcases ht with ht | ht
      · exact decodeChunk_tokens_lt dj c _ t ht
      · exact ih _ t ht

lemma lastTok_comp {σ : Type} {st stm stf : DecState σ} {ts1 ts2 : List ℕ}
    (h1 : (ts1 = [] ∧ stm = st) ∨ ts1.getLast? = some stm.lastToken)
    (h2 : (ts2 = [] ∧ stf = stm) ∨ ts2.getLast? = some stf.lastToken) :
    ((ts1 ++ ts2 = [] ∧ stf = st) ∨ (ts1 ++ ts2).getLast? = some stf.lastToken) := by
  rcases h2 with ⟨rfl, rfl⟩ | h2
  · rcases h1 with ⟨rfl, rfl⟩ | h1
    · left; simp
    · right; simpa using h1
  · right
    have hne : ts2 ≠ [] := by
      intro he
      rw [he] at h2
      simp at h2
    rw [List.getLast?_append_of_ne_nil ts1 hne]
    exact h2

lemma lastTok_frameLoop {σ φ : Type} (dj : φ → ℕ → σ → σ → DJOut σ) (frame : φ) :
    ∀ (k : ℕ) (st : DecState σ),
      ((decodeFrameLoop dj frame k st).2 = [] ∧ (decodeFrameLoop dj frame k st).1 = st) ∨
      (decodeFrameLoop dj frame k st).2.getLast? =
        some (decodeFrameLoop dj frame k st).1.lastToken := by
  intro k
  induction k with
  | zero => intro st; left; simp [decodeFrameLoop]
  | succ n ih =>
      intro st
      simp only [decodeFrameLoop]
      set out := dj frame st.lastToken st.state1 st.state2 with hout
      set p := npArgmax (out.logits.take VOCAB_SIZE) with hp
      split
      · left; simp
      · rcases ih ⟨out.state1, out.state2, p⟩ with ⟨h1, h2⟩ | h
        · right
          simp [h1, h2]
        · right
          have hne : (decodeFrameLoop dj frame n ⟨out.state1, out.state2, p⟩).2 ≠ [] := by
            intro he
            rw [he] at h
            simp at h
          dsimp only
          rw [show (p :: (decodeFrameLoop dj frame n ⟨out.state1, out.state2, p⟩).2) =
              [p] ++ (decodeFrameLoop dj frame n ⟨out.state1, out.state2, p⟩).2 from rfl]
          rw [List.getLast?_append_of_ne_nil [p] hne]
          exact h

lemma lastTok_chunk {σ φ : Type} (dj : φ → ℕ → σ → σ → DJOut σ) :
    ∀ (fs : List φ) (st : DecState σ),
      ((decodeChunk dj fs st).2 = [] ∧ (decodeChunk dj fs st).1 = st) ∨
      (decodeChunk dj fs st).2.getLast? = some (decodeChunk dj fs st).1.lastToken := by
  intro fs
  induction fs with
  | nil => intro st; left; simp [decodeChunk]
  | cons f fs ih =>
      intro st
      simp only [decodeChunk]
      exact lastTok_comp (lastTok_frameLoop dj f MAX_SYMBOLS_PER_STEP st) (ih _)

lemma lastTok_chunks {σ φ : Type} (dj : φ → ℕ → σ → σ → DJOut σ) :
    ∀ (cs : List (List φ)) (st : DecState σ),
      ((decodeChunks dj cs st).2 = [] ∧ (decodeChunks dj cs st).1 = st) ∨
      (decodeChunks dj cs st).2.getLast? = some (decodeChunks dj cs st).1.lastToken := by
  intro cs
  induction cs with
  | nil => intro st; left; simp [decodeChunks]
  | cons c cs ih =>
      intro st
      simp only [decodeChunks]
      exact lastTok_comp (lastTok_chunk dj c st) (ih _)

lemma decodeChunk_append {σ φ : Type} (dj : φ → ℕ → σ → σ → DJOut σ) :
    ∀ (a b : List φ) (st : DecState σ),
      decodeChunk dj (a ++ b) st =
        ((decodeChunk dj b (decodeChunk dj a st).1).1,
         (decodeChunk dj a st).2 ++ (decodeChunk dj b (decodeChunk dj a st).1).2) := by
  intro a
  induction a with
  | nil => intro b st; simp [decodeChunk]
  | cons f fs ih => intro b st; simp [decodeChunk, ih, List.append_assoc]

/-! ### Synthetic decoder-joint stubs used as concrete inputs -/

/-- Stub decoder-joint whose prediction depends on `last_token`: it emits
token `0` right after a blank history and token `1` otherwise, and never
predicts blank.  Used to observe whether the decoder state survives a chunk
boundary. -/
def exDj : Unit → ℕ → ℕ → ℕ → DJOut ℕ := fun _ last s1 _ =>
  ⟨if last = BLANK_ID then [1, 0] else [0, 1], s1, s1⟩

/-- Stub decoder-joint that always predicts blank (argmax index `1024`) and
returns state tensors different from its inputs, so a rollback is observable. -/
def blankDj : Unit → ℕ → ℕ → ℕ → DJOut ℕ := fun _ _ s1 s2 =>
  ⟨List.replicate 1024 0 ++ [1], s1 + 1, s2 + 1⟩

/-- Stub decoder-joint that never predicts blank (its only logit is at
index `0`). -/
def neverBlankDj : Unit → ℕ → ℕ → ℕ → DJOut ℕ := fun _ _ s1 s2 =>
  ⟨[1], s1, s2⟩

lemma npArgmaxAux_replicate_zero_append_one :
    ∀ (k best i : ℕ), npArgmaxAux (List.replicate k (0:ℚ) ++ [1]) best 0 i = i + k := by
  intro k
  induction k with
  | zero => intro best i; norm_num [npArgmaxAux]
  | succ n ih =>
      intro best i
      have h1 : (List.replicate (n + 1) (0:ℚ) ++ [1]) = 0 :: (List.replicate n 0 ++ [1]) := by
        simp [List.replicate_succ]
      rw [h1]
      simp only [npArgmaxAux, lt_self_iff_false, if_false]
      rw [ih]
      omega

lemma npArgmax_blankLogits :
    npArgmax ((List.replicate 1024 (0:ℚ) ++ [1]).take VOCAB_SIZE) = BLANK_ID := by
  rw [List.take_of_length_le
    (by rw [List.length_append, List.length_replicate]; norm_num [VOCAB_SIZE])]
  have h1 : (List.replicate 1024 (0:ℚ) ++ [1]) = 0 :: (List.replicate 1023 0 ++ [1]) := rfl
  rw [h1]
  show npArgmaxAux (List.replicate 1023 (0:ℚ) ++ [1]) 0 0 1 = BLANK_ID
  rw [npArgmaxAux_replicate_zero_append_one]
  rfl

/-- The stub `neverBlankDj` indeed never predicts blank: its argmax is always `0`. -/
lemma neverBlankDj_nonblank (tok s1 s2 : ℕ) :
    npArgmax ((neverBlankDj () tok s1 s2).logits.take VOCAB_SIZE) ≠ BLANK_ID := by
  show npArgmax ([1].take VOCAB_SIZE) ≠ BLANK_ID
  decide

/-! ### Claim theorems: greedy decoder -/

/-- C2: whenever the argmax over the (first `VOCAB_SIZE`) logits equals
`BLANK_ID`, the symbol loop for that frame returns the state snapshot taken
before the decoder-joint call unchanged — `state1`, `state2` and `last_token`
are all restored, the call's returned state update is discarded — and the
loop exits for this frame emitting nothing further. -/
theorem blank_rollback_restores_snapshot {σ φ : Type} (dj : φ → ℕ → σ → σ → DJOut σ)
    (frame : φ) (fuel : ℕ) (st : DecState σ)
    (hblank : npArgmax ((dj frame st.lastToken st.state1 st.state2).logits.take VOCAB_SIZE)
        = BLANK_ID) :
    decodeFrameLoop dj frame (fuel + 1) st = (st, []) := by
  simp [decodeFrameLoop, hblank]

/-- Witness for C2: the always-blank stub triggers the rollback from the
initial state; the state after the call equals the state before it, not the
stub's returned (incremented) state. -/
theorem blank_rollback_restores_snapshot_witness :
    npArgmax ((blankDj () (initDecState 0).lastToken (initDecState 0).state1
        (initDecState 0).state2).logits.take VOCAB_SIZE) = BLANK_ID ∧
    decodeFrameLoop blankDj () 1 (initDecState 0) = (initDecState 0, []) :=
  ⟨npArgmax_blankLogits,
   blank_rollback_restores_snapshot blankDj () 0 (initDecState 0) npArgmax_blankLogits⟩

/-- C3: for every encoded frame and every bound `k`, the symbol loop emits at
most `k` tokens, and if every decoder-joint call returns a non-blank argmax it
emits exactly `k` tokens and then stops (no error: the function is total). -/
theorem frame_emission_bounded_by_max_symbols {σ φ : Type} (dj : φ → ℕ → σ → σ → DJOut σ)
    (frame : φ) (k : ℕ) (st : DecState σ) :
    (decodeFrameLoop dj frame k st).2.length ≤ k ∧
    ((∀ tok s1 s2, npArgmax ((dj frame tok s1 s2).logits.take VOCAB_SIZE) ≠ BLANK_ID) →
      (decodeFrameLoop dj frame k st).2.length = k) :=
  ⟨decodeFrameLoop_len_le dj frame k st,
   fun hnb => decodeFrameLoop_len_eq dj frame hnb k st⟩

/-- Witness for C3: the never-blank stub with `k = 10` (the scripts'
`MAX_SYMBOLS_PER_STEP`) emits exactly `10` tokens for one frame. -/
theorem frame_emission_bounded_by_max_symbols_witness :
    (decodeFrameLoop neverBlankDj () 10 (initDecState 0)).2.length ≤ 10 ∧
    (decodeFrameLoop neverBlankDj () 10 (initDecState 0)).2.length = 10 :=
  ⟨(frame_emission_bounded_by_max_symbols neverBlankDj () 10 (initDecState 0)).1,
   (frame_emission_bounded_by_max_symbols neverBlankDj () 10 (initDecState 0)).2
     (fun tok s1 s2 => neverBlankDj_nonblank tok s1 s2)⟩

/-- C1 (counterexample): in `debug_features2` TEST 2 the decoder state does
not persist across chunk boundaries.  With a stub decoder-joint whose output
depends on `last_token`, the per-chunk `greedy_decode` pipeline (which
re-initializes the state on every call) produces a different token stream
than the single-history decode the claim mandates; moreover the state
committed at the end of chunk 1 has `last_token ≠ BLANK_ID`, while the
`greedy_decode` call for chunk 2 starts again from `last_token = BLANK_ID`. -/
theorem greedy_state_reset_in_df2_stream :
    df2StreamTokens exDj 0 [[()], [()]] ≠
      (decodeChunks exDj [[()], [()]] (initDecState 0)).2 ∧
    (decodeChunk exDj [()] (initDecState 0)).1.lastToken ≠ BLANK_ID := by
  decide

/-- C1 (amended): in verify_streaming's orchestrator the decoder state is
created once at stream start (`initDecState`: zero states, blank
`last_token`) and threads through every frame and chunk exactly as committed,
so decoding a stream chunk-by-chunk equals one continuous decode of the
concatenated frame sequence with a single initialization. -/
theorem decode_state_threads_across_chunks {σ φ : Type} (dj : φ → ℕ → σ → σ → DJOut σ)
    (chunks : List (List φ)) (zero : σ) :
    decodeChunks dj chunks (initDecState zero) =
      decodeChunk dj chunks.flatten (initDecState zero) := by
  have h : ∀ (cs : List (List φ)) (st : DecState σ),
      decodeChunks dj cs st = decodeChunk dj cs.flatten st := by
    intro cs
    induction cs with
    | nil => intro st; simp [decodeChunks, decodeChunk]
    | cons c cs ih =>
        intro st
        simp [decodeChunks, List.flatten_cons, decodeChunk_append, ih]
  exact h chunks _

/-- C10: every emitted token id lies in `[0, VOCAB_SIZE - 1)` and is never
`BLANK_ID` (the argmax ranges over only the first `VOCAB_SIZE` logits and the
blank branch never appends), and `last_token` is either the initial blank id
(when nothing was emitted) or the most recently emitted token. -/
theorem emitted_tokens_nonblank_in_range {σ φ : Type} (dj : φ → ℕ → σ → σ → DJOut σ)
    (chunks : List (List φ)) (zero : σ) :
    (∀ t ∈ (decodeChunks dj chunks (initDecState zero)).2,
        t < VOCAB_SIZE - 1 ∧ t ≠ BLANK_ID) ∧
    (((decodeChunks dj chunks (initDecState zero)).2 = [] ∧
        (decodeChunks dj chunks (initDecState zero)).1.lastToken = BLANK_ID) ∨
      (decodeChunks dj chunks (initDecState zero)).2.getLast? =
        some (decodeChunks dj chunks (initDecState zero)).1.lastToken) := by
  constructor
  · intro t ht
    have h := decodeChunks_tokens_lt dj chunks (initDecState zero) t ht
    have h2 : VOCAB_SIZE = 1025 := rfl
    have h3 : BLANK_ID = 1024 := rfl
    omega
  · rcases lastTok_chunks dj chunks (initDecState zero) with ⟨h1, h2⟩ | h
    · left
      refine ⟨h1, ?_⟩
      rw [h2]
      rfl
    · right
      exact h

/-- Witness for C10 at a concrete stub and two one-frame chunks. -/
theorem emitted_tokens_nonblank_in_range_witness :
    (∀ t ∈ (decodeChunks exDj [[()], [()]] (initDecState 0)).2,
        t < VOCAB_SIZE - 1 ∧ t ≠ BLANK_ID) ∧
    (((decodeChunks exDj [[()], [()]] (initDecState 0)).2 = [] ∧
        (decodeChunks exDj [[()], [()]] (initDecState 0)).1.lastToken = BLANK_ID) ∨
      (decodeChunks exDj [[()], [()]] (initDecState 0)).2.getLast? =
        some (decodeChunks exDj [[()], [()]] (initDecState 0)).1.lastToken) :=
  emitted_tokens_nonblank_in_range exDj [[()], [()]] 0

/-! ### Streaming encoder session (cache threading)

verify_streaming.main initializes the three cache tensors to all-zero /
zero-length (lines 248-254), passes them into every `enc_sess.run` call
(lines 295-301), and replaces all three wholesale with the call's returned
`*_next` outputs (lines 306-308).  The encoder network itself is opaque:
`enc : EncoderCache → χ → ε × EncoderCache`, where `χ` is the chunk payload
(features) and `ε` the encoder output. -/

/-- The encoder's recurrent cache state: `cache_last_channel`
`(1,24,70,1024)`, `cache_last_time` `(1,24,1024,8)`, and the scalar
`cache_last_channel_len` (int64). -/
structure EncoderCache where
  lastChannel : Fin NUM_LAYERS → Fin CACHE_CHANNEL_CONTEXT → Fin ENCODER_DIM → ℚ
  lastTime : Fin NUM_LAYERS → Fin ENCODER_DIM → Fin CACHE_TIME_CONTEXT → ℚ
  validLen : ℤ

/-- Stream-start cache: all-zero tensors, zero valid length
(verify_streaming.py lines 248-254). -/
def zeroCache : EncoderCache :=
  ⟨fun _ _ _ => 0, fun _ _ _ => 0, 0⟩

/-- Trace of encoder invocations over a stream's chunks: each entry records
(cache passed in, encoder output, cache returned); the returned cache of one
call becomes the input of the next, mirroring the rebinding at
verify_streaming.py lines 306-308. -/
def encTrace {χ ε : Type} (enc : EncoderCache → χ → ε × EncoderCache) :
    List χ → EncoderCache → List (EncoderCache × ε × EncoderCache)
  | [], _ => []
  | c :: cs, k => (k, enc k c) :: encTrace enc cs (enc k c).2

lemma encTrace_chain {χ ε : Type} (enc : EncoderCache → χ → ε × EncoderCache) :
    ∀ (cs : List χ) (k : EncoderCache),
      List.Chain' (fun a b => b.1 = a.2.2) (encTrace enc cs k) := by
  intro cs
  induction cs with
  | nil => intro k; simp [encTrace]
  | cons c cs ih =>
      intro k
      cases cs with
      | nil => simp [encTrace]
      | cons c' cs' =>
          have h := ih (enc k c).2
          simp only [encTrace] at h ⊢
          rw [List.chain'_cons]
          exact ⟨rfl, h⟩

/-- C8: the encoder session threads cache state causally — the first
invocation of a stream receives the all-zero / zero-length cache, and every
subsequent invocation receives exactly the cache returned by the immediately
preceding invocation (the three tensors travel as one atomically-replaced
`EncoderCache` value). -/
theorem encoder_cache_threading {χ ε : Type} (enc : EncoderCache → χ → ε × EncoderCache)
    (chunks : List χ) :
    (encTrace enc chunks zeroCache).head?.map Prod.fst =
      chunks.head?.map (fun _ => zeroCache) ∧
    List.Chain' (fun a b => b.1 = a.2.2) (encTrace enc chunks zeroCache) := by
  constructor
  · cases chunks with
    | nil => simp [encTrace]
    | cons c cs => simp [encTrace]
  · exact encTrace_chain enc chunks zeroCache

/-! ### Orchestrator chunking loops

Two chunking loops appear in verify_streaming.main.  The primary loop
(lines 264-271) pads every chunk — including a short trailing one — with
zeros up to `chunk_samples` before feature extraction.  The retry loop
(lines 414-422) instead breaks out as soon as the remaining chunk is shorter
than `400` samples (one feature window), dropping those samples.
`debug_features2` (lines 192-197) breaks on chunks shorter than
`window_size` the same way.  The `cs = 0` guard below only rules out the
non-terminating degenerate call; the scripts use `chunk_samples` of 16000 or
40000. -/

/-- Zero-pad a chunk on the right up to `cs` samples
(`np.pad(chunk, (0, chunk_samples - len(chunk)))`). -/
def padTo (cs : ℕ) (l : List ℤ) : List ℤ :=
  l ++ List.replicate (cs - l.length) 0

/-- Chunk extraction of the primary loop (verify_streaming.py lines 264-271):
take `cs` samples, zero-pad a short final chunk to `cs`, continue with the
rest. -/
def chunksMain (cs : ℕ) (pcm : List ℤ) : List (List ℤ) :=
  if h : pcm = [] ∨ cs = 0 then []
  else padTo cs (pcm.take cs) :: chunksMain cs (pcm.drop cs)
termination_by pcm.length
decreasing_by
  simp only [List.length_drop]
  push_neg at h
  have hl : pcm.length ≠ 0 := fun he => h.1 (List.length_eq_zero.mp he)
  have hc : cs ≠ 0 := h.2
  omega

/-- Chunk extraction of the retry loop (verify_streaming.py lines 414-422):
like `chunksMain`, but a chunk shorter than `400` samples aborts the loop
(`if len(chunk) < 400: break`) before any padding happens. -/
def chunksRetry (cs : ℕ) (pcm : List ℤ) : List (List ℤ) :=
  if h1 : pcm = [] then []
  else if h2 : (pcm.take cs).length < 400 then []
  else padTo cs (pcm.take cs) :: chunksRetry cs (pcm.drop cs)
termination_by pcm.length
decreasing_by
  simp only [List.length_take] at h2
  simp only [List.length_drop]
  omega

lemma chunksMain_step (cs : ℕ) (pcm : List ℤ) (h : ¬(pcm = [] ∨ cs = 0)) :
    chunksMain cs pcm = padTo cs (pcm.take cs) :: chunksMain cs (pcm.drop cs) := by
  rw [chunksMain]
  exact dif_neg h

lemma chunksMain_nil (cs : ℕ) : chunksMain cs [] = [] := by
  rw [chunksMain]
  exact dif_pos (Or.inl rfl)

lemma chunksRetry_step (cs : ℕ) (pcm : List ℤ) (hne : pcm ≠ [])
    (h : ¬(pcm.take cs).length < 400) :
    chunksRetry cs pcm = padTo cs (pcm.take cs) :: chunksRetry cs (pcm.drop cs) := by
  rw [chunksRetry]
  rw [dif_neg hne]
  exact dif_neg h

lemma padTo_length (cs : ℕ) (l : List ℤ) (h : l.length ≤ cs) :
    (padTo cs l).length = cs := by
  simp only [padTo, List.length_append, List.length_replicate]
  omega

lemma chunksMain_flatten (cs : ℕ) (hcs : 0 < cs) :
    ∀ (n : ℕ) (pcm : List ℤ), pcm.length ≤ n →
      ∃ k, (chunksMain cs pcm).flatten = pcm ++ List.replicate k 0 := by
  intro n
  induction n with
  | zero =>
      intro pcm hlen
      have h0 : pcm = [] := List.length_eq_zero.mp (Nat.le_zero.mp hlen)
      subst h0
      exact ⟨0, by simp [chunksMain_nil]⟩
  | succ m ih =>
      intro pcm hlen
      by_cases hp : pcm = []
      · subst hp
        exact ⟨0, by simp [chunksMain_nil]⟩
      · rw [chunksMain_step cs pcm (by simp [hp]; omega)]
        have hlp : 0 < pcm.length := List.length_pos.mpr hp
        obtain ⟨k, hk⟩ := ih (pcm.drop cs) (by simp only [List.length_drop]; omega)
        by_cases hle : pcm.length ≤ cs
        · have hdrop : pcm.drop cs = [] := List.drop_eq_nil_of_le hle
          have htake : pcm.take cs = pcm := List.take_of_length_le hle
          refine ⟨cs - pcm.length + k, ?_⟩
          rw [List.flatten_cons, hk, hdrop, htake]
          simp only [padTo, List.nil_append, List.append_assoc]
          rw [← List.replicate_add]
        · have htakelen : (pcm.take cs).length = cs := by
            simp only [List.length_take]
            omega
          have hpad : padTo cs (pcm.take cs) = pcm.take cs := by
            simp [padTo, htakelen]
          refine ⟨k, ?_⟩
          rw [List.flatten_cons, hk, hpad, ← List.append_assoc, List.take_append_drop]

lemma chunksMain_chunk_length (cs : ℕ) (hcs : 0 < cs) :
    ∀ (n : ℕ) (pcm : List ℤ), pcm.length ≤ n →
      ∀ c ∈ chunksMain cs pcm, c.length = cs := by
  intro n
  induction n with
  | zero =>
      intro pcm hlen c hc
      have h0 : pcm = [] := List.length_eq_zero.mp (Nat.le_zero.mp hlen)
      subst h0
      simp [chunksMain_nil] at hc
  | succ m ih =>
      intro pcm hlen c hc
      by_cases hp : pcm = []
      · subst hp
        simp [chunksMain_nil] at hc
      · rw [chunksMain_step cs pcm (by simp [hp]; omega)] at hc
        have hlp : 0 < pcm.length := List.length_pos.mpr hp
        rcases List.mem_cons.mp hc with rfl | hc
        · exact padTo_length cs (pcm.take cs) (by simp [List.length_take])
        · exact ih (pcm.drop cs) (by simp only [List.length_drop]; omega) c hc

/-- C5 (amended): the primary orchestration loop never drops samples — every
chunk, including a short trailing chunk, is zero-padded up to the nominal
chunk size `cs` (which the scripts always choose at least one feature window
long), so the concatenation of the processed chunks is exactly the input
followed by trailing zero padding, and every chunk handed to feature
extraction has length `cs`. -/
theorem main_loop_processes_every_sample (cs : ℕ) (hcs : 0 < cs) (pcm : List ℤ) :
    (∃ k, (chunksMain cs pcm).flatten = pcm ++ List.replicate k 0) ∧
    ∀ c ∈ chunksMain cs pcm, c.length = cs :=
  ⟨chunksMain_flatten cs hcs pcm.length pcm le_rfl,
   chunksMain_chunk_length cs hcs pcm.length pcm le_rfl⟩

/-- Witness for the amended C5 at a concrete short stream. -/
theorem main_loop_processes_every_sample_witness :
    0 < 3 ∧
    ((∃ k, (chunksMain 3 [1, 2, 3, 4]).flatten = [1, 2, 3, 4] ++ List.replicate k 0) ∧
      ∀ c ∈ chunksMain 3 [1, 2, 3, 4], c.length = 3) :=
  ⟨Nat.zero_lt_succ 2, main_loop_processes_every_sample 3 (Nat.zero_lt_succ 2) [1, 2, 3, 4]⟩

/-- C5 (counterexample): the retry loop silently drops a trailing chunk
shorter than one feature window.  With nominal chunk size `400` and an input
of `500` samples, the loop processes only the first `400` samples: the last
`100` samples appear in no processed chunk, contradicting the claim that
every sample of the stream is processed. -/
theorem retry_loop_drops_short_trailing_chunk :
    ¬ ∃ k, (chunksRetry 400 (List.replicate 500 (1:ℤ))).flatten =
        List.replicate 500 (1:ℤ) ++ List.replicate k 0 := by
  have ht : (List.replicate 500 (1:ℤ)).take 400 = List.replicate 400 1 := by
    rw [List.take_replicate]
    norm_num
  have hd : (List.replicate 500 (1:ℤ)).drop 400 = List.replicate 100 1 := by
    rw [List.drop_replicate]
  have h2 : chunksRetry 400 (List.replicate 100 (1:ℤ)) = [] := by
    rw [chunksRetry]
    rw [dif_neg (List.ne_nil_of_length_pos
      (by simp only [List.length_replicate]; norm_num))]
    exact dif_pos (by simp only [List.length_take, List.length_replicate]; omega)
  have h1 : chunksRetry 400 (List.replicate 500 (1:ℤ)) =
      [padTo 400 (List.replicate 400 1)] := by
    rw [chunksRetry_step 400 (List.replicate 500 1)
      (List.ne_nil_of_length_pos (by simp only [List.length_replicate]; norm_num))
      (by simp only [List.length_take, List.length_replicate]; omega)]
    rw [ht, hd, h2]
  rintro ⟨k, hk⟩
  rw [h1] at hk
  have hlen := congrArg List.length hk
  simp only [List.flatten_cons, List.flatten_nil, List.append_nil, padTo,
    List.length_append, List.length_replicate] at hlen
  omega

/-! ### Mel filterbank (verify_streaming.create_mel_filterbank, lines 37-79)

The mel-scale boundary computation uses `log10` and `10**x`, modelled over
`ℝ`; the bin indices and triangular weights are exact integer/rational
values, modelled computably from the bin points so concrete instances can be
evaluated. -/

/-- Mel scale: `hz_to_mel(hz) = 2595 * log10(1 + hz / 700)` (line 37). -/
noncomputable def hz_to_mel (hz : ℝ) : ℝ :=
  2595 * Real.logb 10 (1 + hz / 700)

/-- Inverse mel scale: `mel_to_hz(mel) = 700 * (10 ** (mel / 2595) - 1)` (line 41). -/
noncomputable def mel_to_hz (mel : ℝ) : ℝ :=
  700 * ((10 : ℝ) ^ (mel / 2595) - 1)

/-- The `num_bins + 2` equally spaced mel points between `mel(0)` and
`mel(sample_rate / 2)` (lines 47-54), as a function of the index. -/
noncomputable def melPoints (sampleRate numBins : ℕ) (i : ℕ) : ℝ :=
  hz_to_mel 0 + (hz_to_mel ((sampleRate : ℝ) / 2) - hz_to_mel 0) * i / (numBins + 1)

/-- The mel points converted back to Hz (line 54). -/
noncomputable def hzPoints (sampleRate numBins : ℕ) (i : ℕ) : ℝ :=
  mel_to_hz (melPoints sampleRate numBins i)

/-- Hz-to-FFT-bin mapping `int(floor(freq * fft_size / sample_rate + 0.5))`
(line 58): round half up. -/
noncomputable def binOfHz (fftSize sampleRate : ℕ) (freq : ℝ) : ℤ :=
  ⌊freq * (fftSize : ℝ) / (sampleRate : ℝ) + 1 / 2⌋

/-- The FFT bin index of the `i`-th mel boundary point (lines 56-58). -/
noncomputable def binPoints (sampleRate fftSize numBins : ℕ) (i : ℕ) : ℤ :=
  binOfHz fftSize sampleRate (hzPoints sampleRate numBins i)

/-- Python's `range(lo, hi)` over integers. -/
def intRange (lo hi : ℤ) : List ℤ :=
  (List.range (hi - lo).toNat).map (fun (j : ℕ) => lo + (j : ℤ))

/-- Rising side of one triangular band: bins `b ∈ [lo, c)` with weight
`(b - lo) / (c - lo)`, keeping only strictly positive weights
(lines 67-71). -/
def risingList (lo c : ℤ) : List (ℤ × ℚ) :=
  ((intRange lo c).map
    (fun b => (b, ((b - lo : ℤ) : ℚ) / ((c - lo : ℤ) : ℚ)))).filter
    (fun p => decide (0 < p.2))

/-- Falling side of one triangular band: bins `b ∈ [c, r)` with weight
`(r - b) / (r - c)`, keeping only strictly positive weights
(lines 72-76). -/
def fallingList (c r : ℤ) : List (ℤ × ℚ) :=
  ((intRange c r).map
    (fun b => (b, ((r - b : ℤ) : ℚ) / ((r - c : ℤ) : ℚ)))).filter
    (fun p => decide (0 < p.2))

/-- One band's sparse filter (lines 66-77): the rising side is built only
when `c > lo` and the falling side only when `r > c`, so a degenerate side
contributes nothing and no zero denominator is ever used. -/
def bandFilter (lo c r : ℤ) : List (ℤ × ℚ) :=
  (if lo < c then risingList lo c else []) ++
  (if c < r then fallingList c r else [])

/-- Filterbank `create_mel_filterbank(sample_rate, fft_size, num_bins)` (lines 45-79):
band `i` uses boundary bins `(bin_points[i], bin_points[i+1],
bin_points[i+2])`. -/
noncomputable def create_mel_filterbank (sampleRate fftSize numBins : ℕ) :
    List (List (ℤ × ℚ)) :=
  (List.range numBins).map (fun i =>
    bandFilter (binPoints sampleRate fftSize numBins i)
      (binPoints sampleRate fftSize numBins (i + 1))
      (binPoints sampleRate fftSize numBins (i + 2)))

/-- Total weight a single band assigns to FFT bin `b`. -/
def binWeight (filt : List (ℤ × ℚ)) (b : ℤ) : ℚ :=
  ((filt.filter (fun p => decide (p.1 = b))).map Prod.snd).sum

/-- Total weight FFT bin `b` receives across all bands of a filterbank. -/
def binWeightSum (filters : List (List (ℤ × ℚ))) (b : ℤ) : ℚ :=
  (filters.map (fun f => binWeight f b)).sum

/-! ### Filterbank lemmas -/

lemma mem_intRange {lo hi b : ℤ} : b ∈ intRange lo hi ↔ lo ≤ b ∧ b < hi := by
  unfold intRange
  rw [List.mem_map]
  constructor
  · rintro ⟨j, hj, rfl⟩
    rw [List.mem_range] at hj
    omega
  · rintro ⟨h1, h2⟩
    refine ⟨(b - lo).toNat, ?_, ?_⟩
    · rw [List.mem_range]
      omega
    · omega

lemma intRange_nodup (lo hi : ℤ) : (intRange lo hi).Nodup := by
  unfold intRange
  refine List.Nodup.map ?_ (List.nodup_range _)
  intro a b hab
  simp only at hab
  omega

lemma mem_risingList {lo c b : ℤ} {w : ℚ} :
    (b, w) ∈ risingList lo c ↔
      lo ≤ b ∧ b < c ∧ 0 < w ∧ w = ((b - lo : ℤ) : ℚ) / ((c - lo : ℤ) : ℚ) := by
  simp only [risingList, List.mem_filter, List.mem_map, decide_eq_true_eq,
    Prod.mk.injEq]
  constructor
  · rintro ⟨⟨a, ha, rfl, rfl⟩, hw⟩
    have := mem_intRange.mp ha
    exact ⟨this.1, this.2, hw, rfl⟩
  · rintro ⟨h1, h2, h3, rfl⟩
    exact ⟨⟨b, mem_intRange.mpr ⟨h1, h2⟩, rfl, rfl⟩, h3⟩

lemma mem_fallingList {c r b : ℤ} {w : ℚ} :
    (b, w) ∈ fallingList c r ↔
      c ≤ b ∧ b < r ∧ 0 < w ∧ w = ((r - b : ℤ) : ℚ) / ((r - c : ℤ) : ℚ) := by
  simp only [fallingList, List.mem_filter, List.mem_map, decide_eq_true_eq,
    Prod.mk.injEq]
  constructor
  · rintro ⟨⟨a, ha, rfl, rfl⟩, hw⟩
    have := mem_intRange.mp ha
    exact ⟨this.1, this.2, hw, rfl⟩
  · rintro ⟨h1, h2, h3, rfl⟩
    exact ⟨⟨b, mem_intRange.mpr ⟨h1, h2⟩, rfl, rfl⟩, h3⟩

lemma mem_bandFilter {lo c r b : ℤ} {w : ℚ} :
    (b, w) ∈ bandFilter lo c r ↔
      (lo ≤ b ∧ b < c ∧ 0 < w ∧ w = ((b - lo : ℤ) : ℚ) / ((c - lo : ℤ) : ℚ)) ∨
      (c ≤ b ∧ b < r ∧ 0 < w ∧ w = ((r - b : ℤ) : ℚ) / ((r - c : ℤ) : ℚ)) := by
  simp only [bandFilter, List.mem_append]
  constructor
  · rintro (h | h)
    · by_cases hc : lo < c
      · rw [if_pos hc] at h
        exact Or.inl (mem_risingList.mp h)
      · rw [if_neg hc] at h
        simp at h
    · by_cases hc : c < r
      · rw [if_pos hc] at h
        exact Or.inr (mem_fallingList.mp h)
      · rw [if_neg hc] at h
        simp at h
  · rintro (⟨h1, h2, h3, h4⟩ | ⟨h1, h2, h3, h4⟩)
    · left
      rw [if_pos (lt_of_le_of_lt h1 h2)]
      exact mem_risingList.mpr ⟨h1, h2, h3, h4⟩
    · right
      rw [if_pos (lt_of_le_of_lt h1 h2)]
      exact mem_fallingList.mpr ⟨h1, h2, h3, h4⟩

lemma binWeight_nil (b : ℤ) : binWeight [] b = 0 := rfl

lemma binWeight_append (x y : List (ℤ × ℚ)) (b : ℤ) :
    binWeight (x ++ y) b = binWeight x b + binWeight y b := by
  simp [binWeight, List.filter_append]

lemma binWeight_cons (q : ℤ × ℚ) (l : List (ℤ × ℚ)) (b : ℤ) :
    binWeight (q :: l) b = (if q.1 = b then q.2 else 0) + binWeight l b := by
  simp only [binWeight, List.filter_cons]
  by_cases h : q.1 = b
  · simp [h]
  · simp [h]

lemma binWeight_keyed (f : ℤ → ℚ) (b : ℤ) :
    ∀ (l : List ℤ), l.Nodup →
      binWeight ((l.map (fun x => (x, f x))).filter (fun q => decide (0 < q.2))) b =
        if b ∈ l ∧ 0 < f b then f b else 0 := by
  intro l
  induction l with
  | nil => intro _; simp [binWeight]
  | cons x xs ih =>
      intro hl
      have hx : x ∉ xs := (List.nodup_cons.mp hl).1
      have ihx := ih (List.nodup_cons.mp hl).2
      simp only [List.map_cons, List.filter_cons]
      by_cases h1 : (0:ℚ) < f x
      · rw [if_pos (by simpa using h1), binWeight_cons, ihx]
        by_cases h2 : x = b
        · subst h2
          simp [hx, h1]
        · have hne : ¬((x, f x).1 = b) := h2
          have hbx : b ≠ x := fun h => h2 h.symm
          rw [if_neg hne]
          simp [List.mem_cons, hbx]
      · rw [if_neg (by simpa using h1), ihx]
        by_cases h2 : x = b
        · subst h2
          simp [h1]
        · have hbx : b ≠ x := fun h => h2 h.symm
          simp [List.mem_cons, hbx]

/-- Rising weight contribution of band boundaries `(lo, c)` to bin `b`, as
stored after the positivity filter. -/
def riseW (lo c b : ℤ) : ℚ :=
  if lo ≤ b ∧ b < c ∧ 0 < ((b - lo : ℤ) : ℚ) / ((c - lo : ℤ) : ℚ)
  then ((b - lo : ℤ) : ℚ) / ((c - lo : ℤ) : ℚ) else 0

/-- Falling weight contribution of band boundaries `(c, r)` to bin `b`, as
stored after the positivity filter. -/
def fallW (c r b : ℤ) : ℚ :=
  if c ≤ b ∧ b < r ∧ 0 < ((r - b : ℤ) : ℚ) / ((r - c : ℤ) : ℚ)
  then ((r - b : ℤ) : ℚ) / ((r - c : ℤ) : ℚ) else 0

lemma binWeight_risingList (lo c b : ℤ) :
    binWeight (risingList lo c) b = riseW lo c b := by
  unfold risingList riseW
  rw [binWeight_keyed _ _ (intRange lo c) (intRange_nodup lo c)]
  simp only [mem_intRange, and_assoc]

lemma binWeight_fallingList (c r b : ℤ) :
    binWeight (fallingList c r) b = fallW c r b := by
  unfold fallingList fallW
  rw [binWeight_keyed _ _ (intRange c r) (intRange_nodup c r)]
  simp only [mem_intRange, and_assoc]

lemma binWeight_bandFilter (lo c r b : ℤ) :
    binWeight (bandFilter lo c r) b = riseW lo c b + fallW c r b := by
  unfold bandFilter
  rw [binWeight_append]
  congr 1
  · by_cases h : lo < c
    · rw [if_pos h, binWeight_risingList]
    · rw [if_neg h, binWeight_nil]
      unfold riseW
      rw [if_neg (fun hc => h (lt_of_le_of_lt hc.1 hc.2.1))]
  · by_cases h : c < r
    · rw [if_pos h, binWeight_fallingList]
    · rw [if_neg h, binWeight_nil]
      unfold fallW
      rw [if_neg (fun hc => h (lt_of_le_of_lt hc.1 hc.2.1))]

lemma riseW_eq_zero {lo c b : ℤ} (h : ¬(lo ≤ b ∧ b < c)) : riseW lo c b = 0 := by
  unfold riseW
  exact if_neg (fun hc => h ⟨hc.1, hc.2.1⟩)

lemma fallW_eq_zero {c r b : ℤ} (h : ¬(c ≤ b ∧ b < r)) : fallW c r b = 0 := by
  unfold fallW
  exact if_neg (fun hc => h ⟨hc.1, hc.2.1⟩)

lemma riseW_le {lo c b : ℤ} (h1 : lo ≤ b) (h2 : b < c) :
    riseW lo c b ≤ ((b - lo : ℤ) : ℚ) / ((c - lo : ℤ) : ℚ) := by
  unfold riseW
  split
  · exact le_rfl
  · apply div_nonneg
    · exact_mod_cast (by omega : (0:ℤ) ≤ b - lo)
    · exact_mod_cast (by omega : (0:ℤ) ≤ c - lo)

lemma fallW_eq {c r b : ℤ} (h1 : c ≤ b) (h2 : b < r) :
    fallW c r b = ((r - b : ℤ) : ℚ) / ((r - c : ℤ) : ℚ) := by
  unfold fallW
  apply if_pos
  refine ⟨h1, h2, ?_⟩
  apply div_pos
  · exact_mod_cast (by omega : (0:ℤ) < r - b)
  · exact_mod_cast (by omega : (0:ℤ) < r - c)

lemma list_sum_map_range (f : ℕ → ℚ) (n : ℕ) :
    ((List.range n).map f).sum = ∑ i ∈ Finset.range n, f i := by
  induction n with
  | zero => simp
  | succ m ih =>
      rw [List.range_succ, List.map_append, List.sum_append, Finset.sum_range_succ, ih]
      simp

lemma binWeightSum_map_range (g : ℕ → List (ℤ × ℚ)) (n : ℕ) (b : ℤ) :
    binWeightSum ((List.range n).map g) b = ∑ i ∈ Finset.range n, binWeight (g i) b := by
  unfold binWeightSum
  rw [List.map_map, list_sum_map_range]
  rfl

lemma triangular_sum_le_one (p : ℕ → ℤ) (n : ℕ)
    (hp : ∀ i j, i ≤ j → p i ≤ p j) (b : ℤ) :
    ∑ i ∈ Finset.range n, binWeight (bandFilter (p i) (p (i + 1)) (p (i + 2))) b ≤ 1 := by
  have hsum : ∀ i ∈ Finset.range n,
      binWeight (bandFilter (p i) (p (i + 1)) (p (i + 2))) b =
        riseW (p i) (p (i + 1)) b + fallW (p (i + 1)) (p (i + 2)) b :=
    fun i _ => binWeight_bandFilter _ _ _ _
  rw [Finset.sum_congr rfl hsum, Finset.sum_add_distrib]
  by_cases hex : ∃ j, p j ≤ b ∧ b < p (j + 1)
  · obtain ⟨j, hj1, hj2⟩ := hex
    have uniq : ∀ i, p i ≤ b → b < p (i + 1) → i = j := by
      intro i h1 h2
      rcases lt_trichotomy i j with h | h | h
      · exfalso
        have := hp (i + 1) j (by omega)
        omega
      · exact h
      · exfalso
        have := hp (j + 1) i (by omega)
        omega
    have hdz : (0:ℤ) < p (j + 1) - p j := by omega
    have hd : (0:ℚ) < ((p (j + 1) - p j : ℤ) : ℚ) := by exact_mod_cast hdz
    have hrise : ∑ i ∈ Finset.range n, riseW (p i) (p (i + 1)) b ≤
        ((b - p j : ℤ) : ℚ) / ((p (j + 1) - p j : ℤ) : ℚ) := by
      have hcong : ∀ i ∈ Finset.range n,
          riseW (p i) (p (i + 1)) b =
            if i = j then riseW (p j) (p (j + 1)) b else 0 := by
        intro i _
        by_cases hij : i = j
        · subst hij; simp
        · rw [if_neg hij]
          exact riseW_eq_zero (fun hc => hij (uniq i hc.1 hc.2))
      rw [Finset.sum_congr rfl hcong, Finset.sum_ite_eq' (Finset.range n) j]
      split
      · exact riseW_le hj1 hj2
      · apply div_nonneg
        · exact_mod_cast (by omega : (0:ℤ) ≤ b - p j)
        · exact_mod_cast (by omega : (0:ℤ) ≤ p (j + 1) - p j)
    have hfall : ∑ i ∈ Finset.range n, fallW (p (i + 1)) (p (i + 2)) b ≤
        ((p (j + 1) - b : ℤ) : ℚ) / ((p (j + 1) - p j : ℤ) : ℚ) := by
      have htgt0 : (0:ℚ) ≤ ((p (j + 1) - b : ℤ) : ℚ) / ((p (j + 1) - p j : ℤ) : ℚ) := by
        apply div_nonneg
        · exact_mod_cast (by omega : (0:ℤ) ≤ p (j + 1) - b)
        · exact_mod_cast (by omega : (0:ℤ) ≤ p (j + 1) - p j)
      rcases Nat.eq_zero_or_pos j with hj0 | hjpos
      · have hz : ∀ i ∈ Finset.range n, fallW (p (i + 1)) (p (i + 2)) b = 0 := by
          intro i _
          apply fallW_eq_zero
          intro hc
          have := uniq (i + 1) hc.1 hc.2
          omega
        rw [Finset.sum_eq_zero hz]
        exact htgt0
      · have hcong : ∀ i ∈ Finset.range n,
            fallW (p (i + 1)) (p (i + 2)) b =
              if i = j - 1 then fallW (p j) (p (j + 1)) b else 0 := by
          intro i _
          by_cases hij : i = j - 1
          · subst hij
            have e1 : j - 1 + 1 = j := by omega
            have e2 : j - 1 + 2 = j + 1 := by omega
            rw [e1, e2, if_pos rfl]
          · rw [if_neg hij]
            apply fallW_eq_zero
            intro hc
            have := uniq (i + 1) hc.1 hc.2
            omega
        rw [Finset.sum_congr rfl hcong, Finset.sum_ite_eq' (Finset.range n) (j - 1)]
        split
        · rw [fallW_eq hj1 hj2]
        · exact htgt0
    calc ∑ i ∈ Finset.range n, riseW (p i) (p (i + 1)) b +
          ∑ i ∈ Finset.range n, fallW (p (i + 1)) (p (i + 2)) b ≤
        ((b - p j : ℤ) : ℚ) / ((p (j + 1) - p j : ℤ) : ℚ) +
          ((p (j + 1) - b : ℤ) : ℚ) / ((p (j + 1) - p j : ℤ) : ℚ) := add_le_add hrise hfall
      _ = 1 := by
          rw [div_add_div_same]
          rw [show ((b - p j : ℤ) : ℚ) + ((p (j + 1) - b : ℤ) : ℚ) =
              ((p (j + 1) - p j : ℤ) : ℚ) by push_cast; ring]
          exact div_self (ne_of_gt hd)
  · have hz1 : ∀ i ∈ Finset.range n, riseW (p i) (p (i + 1)) b = 0 := by
      intro i _
      exact riseW_eq_zero (fun hc => hex ⟨i, hc.1, hc.2⟩)
    have hz2 : ∀ i ∈ Finset.range n, fallW (p (i + 1)) (p (i + 2)) b = 0 := by
      intro i _
      exact fallW_eq_zero (fun hc => hex ⟨i + 1, hc.1, hc.2⟩)
    rw [Finset.sum_eq_zero hz1, Finset.sum_eq_zero hz2]
    norm_num

lemma hz_to_mel_zero : hz_to_mel 0 = 0 := by
  unfold hz_to_mel
  norm_num

lemma hz_to_mel_nonneg {x : ℝ} (hx : 0 ≤ x) : 0 ≤ hz_to_mel x := by
  unfold hz_to_mel
  have h1 : (1:ℝ) ≤ 1 + x / 700 := by
    have := div_nonneg hx (by norm_num : (0:ℝ) ≤ 700)
    linarith
  have h2 := Real.logb_nonneg (by norm_num : (1:ℝ) < 10) h1
  linarith

lemma mel_to_hz_mono : Monotone mel_to_hz := by
  intro a b hab
  unfold mel_to_hz
  have h1 : (10:ℝ) ^ (a / 2595) ≤ (10:ℝ) ^ (b / 2595) := by
    rw [Real.rpow_le_rpow_left_iff (by norm_num : (1:ℝ) < 10)]
    linarith
  linarith

lemma melPoints_mono (sr nb : ℕ) : Monotone (melPoints sr nb) := by
  intro i j hij
  unfold melPoints
  simp only [hz_to_mel_zero, zero_add, sub_zero]
  have hM : 0 ≤ hz_to_mel ((sr : ℝ) / 2) := hz_to_mel_nonneg (by positivity)
  have hij' : (i : ℝ) ≤ (j : ℝ) := by exact_mod_cast hij
  gcongr

lemma binOfHz_mono (fft sr : ℕ) (hsr : 0 < sr) {x y : ℝ} (hxy : x ≤ y) :
    binOfHz fft sr x ≤ binOfHz fft sr y := by
  unfold binOfHz
  apply Int.floor_le_floor
  have hsr' : (0:ℝ) < (sr : ℝ) := by exact_mod_cast hsr
  gcongr

lemma binPoints_mono (sr fft nb : ℕ) (hsr : 0 < sr) :
    ∀ i j, i ≤ j → binPoints sr fft nb i ≤ binPoints sr fft nb j := by
  intro i j hij
  unfold binPoints hzPoints
  exact binOfHz_mono fft sr hsr (mel_to_hz_mono (melPoints_mono sr nb hij))

/-! ### Claim theorems: mel filterbank -/

/-- C6: the filterbank maps a Hz value to an FFT bin by round-half-up
(`binOfHz fft sr hz = n` exactly when `hz * fft / sr + 1/2` lies in
`[n, n + 1)`), a band with boundary bins `(lo, c, r)` stores exactly the
rising weights `(b - lo)/(c - lo)` on `[lo, c)` and the falling weights
`(r - b)/(r - c)` on `[c, r)` (positive ones only), a degenerate side
(`c = lo` or `r = c`) contributes no entries — in particular no weight is
ever computed with a zero denominator — and band `i` of
`create_mel_filterbank` is built from boundary bins
`(bin_points i, bin_points (i+1), bin_points (i+2))`. -/
theorem filterbank_bin_mapping_and_triangular_weights :
    (∀ (fft sr : ℕ) (freq : ℝ) (n : ℤ),
        binOfHz fft sr freq = n ↔
          (n : ℝ) ≤ freq * (fft : ℝ) / (sr : ℝ) + 1 / 2 ∧
            freq * (fft : ℝ) / (sr : ℝ) + 1 / 2 < n + 1) ∧
    (∀ (lo c r b : ℤ) (w : ℚ),
        (b, w) ∈ bandFilter lo c r ↔
          (lo ≤ b ∧ b < c ∧ 0 < w ∧ w = ((b - lo : ℤ) : ℚ) / ((c - lo : ℤ) : ℚ)) ∨
          (c ≤ b ∧ b < r ∧ 0 < w ∧ w = ((r - b : ℤ) : ℚ) / ((r - c : ℤ) : ℚ))) ∧
    (∀ (lo r b : ℤ) (w : ℚ), (b, w) ∈ bandFilter lo lo r →
        lo ≤ b ∧ b < r ∧ w = ((r - b : ℤ) : ℚ) / ((r - lo : ℤ) : ℚ)) ∧
    (∀ (lo c b : ℤ) (w : ℚ), (b, w) ∈ bandFilter lo c c →
        lo ≤ b ∧ b < c ∧ w = ((b - lo : ℤ) : ℚ) / ((c - lo : ℤ) : ℚ)) ∧
    (∀ (sr fft nb i : ℕ), i < nb →
        (create_mel_filterbank sr fft nb)[i]? =
          some (bandFilter (binPoints sr fft nb i) (binPoints sr fft nb (i + 1))
            (binPoints sr fft nb (i + 2)))) := by
  refine ⟨?_, ?_, ?_, ?_, ?_⟩
  · intro fft sr freq n
    unfold binOfHz
    exact Int.floor_eq_iff
  · intro lo c r b w
    exact mem_bandFilter
  · intro lo r b w hmem
    rcases mem_bandFilter.mp hmem with ⟨h1, h2, _, _⟩ | ⟨h1, h2, _, h4⟩
    · omega
    · exact ⟨h1, h2, h4⟩
  · intro lo c b w hmem
    rcases mem_bandFilter.mp hmem with ⟨h1, h2, _, h4⟩ | ⟨h1, h2, _, _⟩
    · exact ⟨h1, h2, h4⟩
    · omega
  · intro sr fft nb i hi
    unfold create_mel_filterbank
    rw [List.getElem?_map, List.getElem?_range hi]
    rfl

/-- Witness for C6 at concrete boundary bins and the script's configuration
`(16000, 512, 128)`. -/
theorem filterbank_bin_mapping_and_triangular_weights_witness :
    (binOfHz 512 16000 8000 = 256 ↔
        (((256 : ℤ) : ℝ) ≤ (8000 : ℝ) * ((512 : ℕ) : ℝ) / ((16000 : ℕ) : ℝ) + 1 / 2 ∧
          (8000 : ℝ) * ((512 : ℕ) : ℝ) / ((16000 : ℕ) : ℝ) + 1 / 2 < ((256 : ℤ) : ℝ) + 1)) ∧
    (((2 : ℤ), (1 : ℚ) / 2) ∈ bandFilter 1 3 5 ↔
        ((1 : ℤ) ≤ 2 ∧ (2 : ℤ) < 3 ∧ 0 < (1 : ℚ) / 2 ∧
          (1 : ℚ) / 2 = (((2 : ℤ) - 1 : ℤ) : ℚ) / (((3 : ℤ) - 1 : ℤ) : ℚ)) ∨
        ((3 : ℤ) ≤ 2 ∧ (2 : ℤ) < 5 ∧ 0 < (1 : ℚ) / 2 ∧
          (1 : ℚ) / 2 = (((5 : ℤ) - 2 : ℤ) : ℚ) / (((5 : ℤ) - 3 : ℤ) : ℚ))) ∧
    ((1 : ℤ) ≤ 1 ∧ (1 : ℤ) < 3 ∧
      (1 : ℚ) = (((3 : ℤ) - 1 : ℤ) : ℚ) / (((3 : ℤ) - 1 : ℤ) : ℚ)) ∧
    ((0 : ℤ) ≤ 1 ∧ (1 : ℤ) < 2 ∧
      (1 : ℚ) / 2 = (((1 : ℤ) - 0 : ℤ) : ℚ) / (((2 : ℤ) - 0 : ℤ) : ℚ)) ∧
    ((create_mel_filterbank 16000 512 128)[0]? =
      some (bandFilter (binPoints 16000 512 128 0) (binPoints 16000 512 128 1)
        (binPoints 16000 512 128 2))) :=
  ⟨filterbank_bin_mapping_and_triangular_weights.1 512 16000 8000 256,
   filterbank_bin_mapping_and_triangular_weights.2.1 1 3 5 2 (1 / 2),
   filterbank_bin_mapping_and_triangular_weights.2.2.1 1 3 1 1
     (mem_bandFilter.mpr (Or.inr (by norm_num))),
   filterbank_bin_mapping_and_triangular_weights.2.2.2.1 0 2 1 (1 / 2)
     (mem_bandFilter.mpr (Or.inl (by norm_num))),
   filterbank_bin_mapping_and_triangular_weights.2.2.2.2 16000 512 128 0 (by norm_num)⟩

/-- C7: for every configuration (positive sample rate), every stored
`(fft_bin, weight)` pair of the built filterbank has weight in `(0, 1]`
(zero-weight entries are omitted), and the total weight any single FFT bin
receives across all mel bands is at most `1`. -/
theorem filterbank_weights_unit_interval_and_bin_sum_le_one (sr fft nb : ℕ)
    (hsr : 0 < sr) :
    (∀ filt ∈ create_mel_filterbank sr fft nb, ∀ q ∈ filt, 0 < q.2 ∧ q.2 ≤ 1) ∧
    ∀ b : ℤ, binWeightSum (create_mel_filterbank sr fft nb) b ≤ 1 := by
  constructor
  · intro filt hf q hq
    unfold create_mel_filterbank at hf
    rw [List.mem_map] at hf
    obtain ⟨i, _, rfl⟩ := hf
    obtain ⟨bq, wq⟩ := q
    rcases mem_bandFilter.mp hq with ⟨h1, h2, h3, h4⟩ | ⟨h1, h2, h3, h4⟩
    · refine ⟨h3, ?_⟩
      subst h4
      have hden : (0:ℚ) <
          ((binPoints sr fft nb (i + 1) - binPoints sr fft nb i : ℤ) : ℚ) := by
        exact_mod_cast
          (by omega : (0:ℤ) < binPoints sr fft nb (i + 1) - binPoints sr fft nb i)
      rw [div_le_one hden]
      exact_mod_cast (by omega :
        (bq - binPoints sr fft nb i : ℤ) ≤
          binPoints sr fft nb (i + 1) - binPoints sr fft nb i)
    · refine ⟨h3, ?_⟩
      subst h4
      have hden : (0:ℚ) <
          ((binPoints sr fft nb (i + 2) - binPoints sr fft nb (i + 1) : ℤ) : ℚ) := by
        exact_mod_cast
          (by omega : (0:ℤ) < binPoints sr fft nb (i + 2) - binPoints sr fft nb (i + 1))
      rw [div_le_one hden]
      exact_mod_cast (by omega :
        (binPoints sr fft nb (i + 2) - bq : ℤ) ≤
          binPoints sr fft nb (i + 2) - binPoints sr fft nb (i + 1))
  · intro b
    unfold create_mel_filterbank
    rw [binWeightSum_map_range]
    exact triangular_sum_le_one (binPoints sr fft nb) nb
      (fun i j hij => binPoints_mono sr fft nb hsr i j hij) b

/-- Witness for C7 at the scripts' configuration `(16000, 512, 128)`. -/
theorem filterbank_weights_unit_interval_and_bin_sum_le_one_witness :
    0 < 16000 ∧
    ((∀ filt ∈ create_mel_filterbank 16000 512 128, ∀ q ∈ filt, 0 < q.2 ∧ q.2 ≤ 1) ∧
      ∀ b : ℤ, binWeightSum (create_mel_filterbank 16000 512 128) b ≤ 1) :=
  ⟨by norm_num,
   filterbank_weights_unit_interval_and_bin_sum_le_one 16000 512 128 (by norm_num)⟩

/-! ### Feature extraction (verify_streaming.compute_features_rust_style, lines 97-144)

The spectral arithmetic (Hann window, DFT power spectrum, log-mel energies)
is modelled over `ℝ`; the frame bookkeeping (window/hop sizes, frame count,
the early length check) is exact integer arithmetic.  The feature buffer is
laid out band-major exactly as in the script:
`features[bin * num_frames + frame]`. -/

/-- Constant `PRE_EMPHASIS = 0.97` (line 25) as an exact real. -/
noncomputable def PRE_EMPHASIS : ℝ := 97 / 100

/-- Window size `window_size = WINDOW_SIZE_MS * sample_rate // 1000` (line 99). -/
def windowSizeOf (sampleRate : ℕ) : ℕ := WINDOW_SIZE_MS * sampleRate / 1000

/-- Hop size `hop_size = HOP_SIZE_MS * sample_rate // 1000` (line 100). -/
def hopSizeOf (sampleRate : ℕ) : ℕ := HOP_SIZE_MS * sampleRate / 1000

/-- Frame count `num_frames = (len(signal) - window_size) // hop_size + 1` (line 122). -/
def numFramesOf (len window hop : ℕ) : ℕ := (len - window) / hop + 1

/-- Pre-emphasized, `[-1, 1]`-normalized signal (lines 107-110):
`signal[0] = pcm[0]/32768`, `signal[i] = pcm[i]/32768 - 0.97*pcm[i-1]/32768`. -/
noncomputable def preemphSignal (pcm : List ℤ) (i : ℕ) : ℝ :=
  if i = 0 then ((pcm.getD 0 0 : ℤ) : ℝ) / 32768
  else ((pcm.getD i 0 : ℤ) : ℝ) / 32768 -
    PRE_EMPHASIS * ((pcm.getD (i - 1) 0 : ℤ) : ℝ) / 32768

/-- Periodic Hann window `0.5 - 0.5*cos(2*pi*i/window_size)` (lines 112-118). -/
noncomputable def hannWindow (window i : ℕ) : ℝ :=
  1 / 2 - 1 / 2 * Real.cos (2 * Real.pi * (i : ℝ) / (window : ℝ))

/-- Frame `t` windowed and zero-padded to `FFT_SIZE` (lines 126-133). -/
noncomputable def paddedFrame (pcm : List ℤ) (window hop t i : ℕ) : ℝ :=
  if i < window then preemphSignal pcm (t * hop + i) * hannWindow window i else 0

/-- Power spectrum bin `k` of frame `t`: squared magnitude of the DFT of the
padded frame, with the angle `-2*pi*k*u/n` of `compute_power_spectrum`
(lines 82-94; `np.fft.rfft` followed by `abs**2` computes the same value). -/
noncomputable def powerSpectrum (pcm : List ℤ) (window hop t k : ℕ) : ℝ :=
  (∑ u ∈ Finset.range FFT_SIZE,
      paddedFrame pcm window hop t u *
        Real.cos (-(2 * Real.pi * (k : ℝ) * (u : ℝ)) / (FFT_SIZE : ℝ))) ^ 2 +
  (∑ u ∈ Finset.range FFT_SIZE,
      paddedFrame pcm window hop t u *
        Real.sin (-(2 * Real.pi * (k : ℝ) * (u : ℝ)) / (FFT_SIZE : ℝ))) ^ 2

/-- Mel energy of band `bin` at frame `t`: weighted sum of power-spectrum
bins through the sparse filter (lines 138-141). -/
noncomputable def melEnergy (pcm : List ℤ) (sampleRate t bin : ℕ) : ℝ :=
  (((create_mel_filterbank sampleRate FFT_SIZE NUM_MEL_BINS).getD bin []).map
    (fun q => powerSpectrum pcm (windowSizeOf sampleRate) (hopSizeOf sampleRate) t
      q.1.toNat * (q.2 : ℝ))).sum

/-- One feature value: `log(mel_energy + 1e-10)` (line 142). -/
noncomputable def featureValue (pcm : List ℤ) (sampleRate t bin : ℕ) : ℝ :=
  Real.log (melEnergy pcm sampleRate t bin + 1 / 10 ^ 10)

/-- Feature extraction `compute_features_rust_style(pcm, sample_rate)` (lines 97-144): rejects
input shorter than one window with the "Audio too short" error, otherwise
returns the band-major flat feature buffer together with `num_frames`. -/
noncomputable def compute_features_rust_style (pcm : List ℤ) (sampleRate : ℕ) :
    Except String (List ℝ × ℕ) :=
  if pcm.length < windowSizeOf sampleRate then
    Except.error ("Audio too short: " ++ toString pcm.length ++
      " samples, need at least " ++ toString (windowSizeOf sampleRate))
  else
    Except.ok
      ((List.range (NUM_MEL_BINS *
          numFramesOf pcm.length (windowSizeOf sampleRate) (hopSizeOf sampleRate))).map
        (fun j => featureValue pcm sampleRate
          (j % numFramesOf pcm.length (windowSizeOf sampleRate) (hopSizeOf sampleRate))
          (j / numFramesOf pcm.length (windowSizeOf sampleRate) (hopSizeOf sampleRate))),
       numFramesOf pcm.length (windowSizeOf sampleRate) (hopSizeOf sampleRate))

/-! ### Claim theorems: feature extraction -/

/-- C9: feature extraction fails with the `InsufficientAudio`-style error
exactly when the input is shorter than one window (no features are produced
in that case), and succeeds on every input of at least `window_size`
samples. -/
theorem insufficient_audio_iff_short_input (pcm : List ℤ) :
    ((∃ e, compute_features_rust_style pcm REQUIRED_SAMPLE_RATE = Except.error e) ↔
      pcm.length < windowSizeOf REQUIRED_SAMPLE_RATE) ∧
    (windowSizeOf REQUIRED_SAMPLE_RATE ≤ pcm.length →
      ∃ r, compute_features_rust_style pcm REQUIRED_SAMPLE_RATE = Except.ok r) := by
  constructor
  · constructor
    · rintro ⟨e, he⟩
      by_contra hlt
      unfold compute_features_rust_style at he
      rw [if_neg hlt] at he
      exact absurd he (by simp)
    · intro hlt
      unfold compute_features_rust_style
      rw [if_pos hlt]
      exact ⟨_, rfl⟩
  · intro hge
    unfold compute_features_rust_style
    rw [if_neg (by omega)]
    exact ⟨_, rfl⟩

/-- Witness for C9 at an input of exactly one window of silence. -/
theorem insufficient_audio_iff_short_input_witness :
    ((∃ e, compute_features_rust_style (List.replicate 400 (0:ℤ)) REQUIRED_SAMPLE_RATE =
        Except.error e) ↔
      (List.replicate 400 (0:ℤ)).length < windowSizeOf REQUIRED_SAMPLE_RATE) ∧
    (∃ r, compute_features_rust_style (List.replicate 400 (0:ℤ)) REQUIRED_SAMPLE_RATE =
        Except.ok r) :=
  ⟨(insufficient_audio_iff_short_input (List.replicate 400 (0:ℤ))).1,
   (insufficient_audio_iff_short_input (List.replicate 400 (0:ℤ))).2
     (by rw [List.length_replicate]; decide)⟩

/-- C4: for every input of at least one window, feature extraction succeeds
with exactly `num_frames = (len - window_size) / hop_size + 1` frames
(`window_size = 400`, `hop_size = 160` at 16 kHz), the flat feature buffer
holds `NUM_MEL_BINS * num_frames` values, every frame's window lies entirely
inside the signal (no partial trailing frame), and in particular 16000
samples yield 98 frames and 400 samples yield 1 frame. -/
theorem num_frames_formula (pcm : List ℤ)
    (h : windowSizeOf REQUIRED_SAMPLE_RATE ≤ pcm.length) :
    ∃ feats,
      compute_features_rust_style pcm REQUIRED_SAMPLE_RATE =
        Except.ok (feats, (pcm.length - 400) / 160 + 1) ∧
      feats.length = NUM_MEL_BINS * ((pcm.length - 400) / 160 + 1) ∧
      (∀ t < (pcm.length - 400) / 160 + 1, t * 160 + 400 ≤ pcm.length) ∧
      (pcm.length = 16000 → (pcm.length - 400) / 160 + 1 = 98) ∧
      (pcm.length = 400 → (pcm.length - 400) / 160 + 1 = 1) := by
  have hw : windowSizeOf REQUIRED_SAMPLE_RATE = 400 := rfl
  unfold compute_features_rust_style
  rw [if_neg (by omega)]
  refine ⟨_, rfl, ?_, ?_, ?_, ?_⟩
  · simp only [List.length_map, List.length_range]
    rfl
  · intro t ht
    rw [hw] at h
    have h1 : (pcm.length - 400) / 160 * 160 ≤ pcm.length - 400 :=
      Nat.div_mul_le_self _ _
    have h2 : t ≤ (pcm.length - 400) / 160 := by omega
    have h3 : t * 160 ≤ (pcm.length - 400) / 160 * 160 :=
      Nat.mul_le_mul_right _ h2
    omega
  · intro he
    rw [he]
  · intro he
    rw [he]

/-- Witness for C4 at one second of silence (16000 zero samples). -/
theorem num_frames_formula_witness :
    windowSizeOf REQUIRED_SAMPLE_RATE ≤ (List.replicate 16000 (0:ℤ)).length ∧
    ∃ feats,
      compute_features_rust_style (List.replicate 16000 (0:ℤ)) REQUIRED_SAMPLE_RATE =
        Except.ok (feats, ((List.replicate 16000 (0:ℤ)).length - 400) / 160 + 1) ∧
      feats.length = NUM_MEL_BINS * (((List.replicate 16000 (0:ℤ)).length - 400) / 160 + 1) ∧
      (∀ t < ((List.replicate 16000 (0:ℤ)).length - 400) / 160 + 1,
        t * 160 + 400 ≤ (List.replicate 16000 (0:ℤ)).length) ∧
      ((List.replicate 16000 (0:ℤ)).length = 16000 →
        ((List.replicate 16000 (0:ℤ)).length - 400) / 160 + 1 = 98) ∧
      ((List.replicate 16000 (0:ℤ)).length = 400 →
        ((List.replicate 16000 (0:ℤ)).length - 400) / 160 + 1 = 1) :=
  ⟨by rw [List.length_replicate]; decide,
   num_frames_formula (List.replicate 16000 (0:ℤ))
     (by rw [List.length_replicate]; decide)⟩
